import Mathlib

/-!
Verification development for the `website-crawler` repository.

The crawl engine lives in `src/01_crawler.py` (`EnhancedSEOCrawler`).  This
file gives a shallow embedding of that code in Lean 4: the URL helpers it
uses from `urllib.parse` (CPython 3.11 semantics), the extraction pipeline
(`clean_text`, `extract_seo_data`, `to_dict`) and the crawl loop
(`EnhancedSEOCrawler.crawl`) as a step function on an explicit state, with
the HTTP layer abstracted as an oracle `String → Option Fetched` and parsed
HTML documents abstracted as a record of the element/attribute queries the
code performs on them.  Machine behaviour that the code cannot observe
(exact float formatting of one CSV cell, non-ASCII IDNA checks inside
`urllib`) is noted where it is elided.
-/

namespace Url

/-- Characters valid in scheme names (`scheme_chars` in `urllib.parse`). -/
def isSchemeChar (c : Char) : Bool :=
  c.isAlpha || c.isDigit || c = '+' || c = '-' || c = '.'

/-- Python `str.find(c, start)`: index of the first occurrence of `c` at or
after `start`, or `none` where Python returns `-1`. -/
def findCharAux (c : Char) : List Char → Nat → Option Nat
  | [], _ => none
  | d :: ds, i => if d = c then some i else findCharAux c ds (i + 1)

def findCharFrom (s : String) (c : Char) (start : Nat) : Option Nat :=
  (findCharAux c (s.data.drop start) 0).map (· + start)

def findChar (s : String) (c : Char) : Option Nat :=
  findCharAux c s.data 0

/-- Python `str.rfind(c)`: index of the last occurrence of `c`, if any. -/
def rfindCharAux (c : Char) : List Char → Nat → Option Nat → Option Nat
  | [], _, acc => acc
  | d :: ds, i, acc => rfindCharAux c ds (i + 1) (if d = c then some i else acc)

def rfindChar (s : String) (c : Char) : Option Nat :=
  rfindCharAux c s.data 0 none

def strTake (s : String) (n : Nat) : String := String.mk (s.data.take n)

def strDrop (s : String) (n : Nat) : String := String.mk (s.data.drop n)

def strContains (s : String) (c : Char) : Bool := s.data.contains c

/-- Python `str.lower()` (the URLs handled here are ASCII). -/
def strLower (s : String) : String := String.mk (s.data.map Char.toLower)

/-- `url.lstrip(_WHATWG_C0_CONTROL_OR_SPACE)`: strip leading code points
`U+0000`..`U+0020`. -/
def lstripC0 (s : String) : String :=
  String.mk (s.data.dropWhile (fun c => c ≤ ' '))

/-- Removal of `_UNSAFE_URL_BYTES_TO_REMOVE` (tab, CR, LF) from the URL. -/
def removeUrlBytes (s : String) : String :=
  String.mk (s.data.filter (fun c => !(c = '\t' || c = '\r' || c = '\n')))

/-- Python `s.split(c, 1)` when `c` occurs in `s`; `(s, "")` otherwise. -/
def splitOnceChar (s : String) (c : Char) : String × String :=
  match findChar s c with
  | none => (s, "")
  | some i => (strTake s i, strDrop s (i + 1))

/-- Python `s.split(c)` (all occurrences, empty parts kept). -/
def splitCharAux (c : Char) : List Char → List Char → List String
  | [], acc => [String.mk acc.reverse]
  | d :: ds, acc =>
    if d = c then String.mk acc.reverse :: splitCharAux c ds []
    else splitCharAux c ds (d :: acc)

def splitChar (s : String) (c : Char) : List String := splitCharAux c s.data []

/-- Python `sep.join(parts)` for a one-character separator. -/
def joinChar (c : Char) : List String → String
  | [] => ""
  | [x] => x
  | x :: y :: xs => x ++ String.mk [c] ++ joinChar c (y :: xs)

/-- `uses_relative` from `urllib.parse`. -/
def usesRelative : List String :=
  ["", "ftp", "http", "gopher", "nntp", "imap", "wais", "file", "https",
   "shttp", "mms", "prospero", "rtsp", "rtspu", "sftp", "svn", "svn+ssh",
   "ws", "wss"]

/-- `uses_netloc` from `urllib.parse`. -/
def usesNetloc : List String :=
  ["", "ftp", "http", "gopher", "nntp", "telnet", "imap", "wais", "file",
   "mms", "https", "shttp", "snews", "prospero", "rtsp", "rtspu", "rsync",
   "svn", "svn+ssh", "sftp", "nfs", "git", "git+ssh", "ws", "wss"]

/-- `uses_params` from `urllib.parse`. -/
def usesParams : List String :=
  ["", "ftp", "hdl", "prospero", "http", "imap", "https", "shttp", "rtsp",
   "rtspu", "sip", "sips", "mms", "sftp", "tel"]

structure SplitResult where
  scheme : String
  netloc : String
  path : String
  query : String
  fragment : String
deriving DecidableEq

structure ParseResult where
  scheme : String
  netloc : String
  path : String
  params : String
  query : String
  fragment : String
deriving DecidableEq

/-- `_splitnetloc(url, start)`: the run of characters from `start` up to the
first of `/`, `?`, `#`, and the remainder of the string from that delimiter. -/
def splitnetloc (url : String) (start : Nat) : String × String :=
  let cs := url.data.drop start
  let netloc := cs.takeWhile (fun c => !(c = '/' || c = '?' || c = '#'))
  (String.mk netloc, String.mk (cs.drop netloc.length))

/-- CPython `urllib.parse.urlsplit` (3.11), restricted to the behaviour the
crawler can observe.  `Except.error` models the `ValueError("Invalid IPv6
URL")` raised on a mismatched bracket in the netloc.  The `ipaddress`-based
validation of well-bracketed hosts and the non-ASCII NFKC netloc check are
not modelled (the former needs the `ipaddress` module, the latter
`unicodedata`; neither changes the result for bracket-free ASCII URLs). -/
def urlsplit (url0 : String) (defscheme : String := "") : Except String SplitResult :=
  let url1 := removeUrlBytes (lstripC0 url0)
  let schemeUrl :=
    match findChar url1 ':' with
    | some i =>
      if 0 < i ∧ (url1.data.take 1).all Char.isAlpha ∧
          (url1.data.take i).all isSchemeChar then
        (strLower (strTake url1 i), strDrop url1 (i + 1))
      else (defscheme, url1)
    | none => (defscheme, url1)
  let scheme := schemeUrl.1
  let url2 := schemeUrl.2
  if url2.data.take 2 = ['/', '/'] then
    let nl := splitnetloc url2 2
    let netloc := nl.1
    let url3 := nl.2
    if (strContains netloc '[' && !(strContains netloc ']')) ||
        (strContains netloc ']' && !(strContains netloc '[')) then
      Except.error "Invalid IPv6 URL"
    else
      let uf := if strContains url3 '#' then splitOnceChar url3 '#' else (url3, "")
      let uq := if strContains uf.1 '?' then splitOnceChar uf.1 '?' else (uf.1, "")
      Except.ok ⟨scheme, netloc, uq.1, uq.2, uf.2⟩
  else
    let uf := if strContains url2 '#' then splitOnceChar url2 '#' else (url2, "")
    let uq := if strContains uf.1 '?' then splitOnceChar uf.1 '?' else (uf.1, "")
    Except.ok ⟨scheme, "", uq.1, uq.2, uf.2⟩

/-- `_splitparams(url)`.  The branch Python takes when the string contains
neither `/` nor `;` is unreachable from `urlparse` (which guards on `;` being
present); it is rendered here as the identity split. -/
def splitparams (url : String) : String × String :=
  let iOpt :=
    if strContains url '/' then
      match rfindChar url '/' with
      | some r => findCharFrom url ';' r
      | none => findChar url ';'
    else findChar url ';'
  match iOpt with
  | none => (url, "")
  | some i => (strTake url i, strDrop url (i + 1))

/-- CPython `urllib.parse.urlparse` (3.11). -/
def urlparse (url : String) (defscheme : String := "") : Except String ParseResult :=
  (urlsplit url defscheme).map fun r =>
    if usesParams.contains r.scheme && strContains r.path ';' then
      let pp := splitparams r.path
      ⟨r.scheme, r.netloc, pp.1, pp.2, r.query, r.fragment⟩
    else ⟨r.scheme, r.netloc, r.path, "", r.query, r.fragment⟩

/-- CPython `urllib.parse.urlunsplit` (3.11). -/
def urlunsplit (scheme netloc path query fragment : String) : String :=
  let url :=
    if netloc ≠ "" ∨ (scheme ≠ "" ∧ usesNetloc.contains scheme ∧ path.data.take 2 ≠ ['/', '/']) then
      let p := if path ≠ "" ∧ path.data.take 1 ≠ ['/'] then "/" ++ path else path
      "//" ++ netloc ++ p
    else path
  let url := if scheme ≠ "" then scheme ++ ":" ++ url else url
  let url := if query ≠ "" then url ++ "?" ++ query else url
  if fragment ≠ "" then url ++ "#" ++ fragment else url

/-- CPython `urllib.parse.urlunparse` (3.11). -/
def urlunparse (scheme netloc path params query fragment : String) : String :=
  let p := if params ≠ "" then path ++ ";" ++ params else path
  urlunsplit scheme netloc p query fragment

/-- `segments[1:-1] = filter(None, segments[1:-1])`: drop empty strings from
all but the first and last positions. -/
def filterInnerAux : List String → List String
  | [] => []
  | [y] => [y]
  | y :: ys => if y = "" then filterInnerAux ys else y :: filterInnerAux ys

def filterInner : List String → List String
  | [] => []
  | [x] => [x]
  | x :: xs => x :: filterInnerAux xs

/-- The `resolved_path` loop of `urljoin`: `..` pops (ignoring pops of the
empty stack), `.` is skipped, anything else is pushed. -/
def resolveSegs : List String → List String → List String
  | [], acc => acc
  | s :: ss, acc =>
    if s = ".." then resolveSegs ss acc.dropLast
    else if s = "." then resolveSegs ss acc
    else resolveSegs ss (acc ++ [s])

/-- CPython `urllib.parse.urljoin` (3.11).  `Except.error` propagates the
`ValueError` that `urlparse` can raise on either argument. -/
def urljoin (base url : String) : Except String String :=
  if base = "" then Except.ok url
  else if url = "" then Except.ok base
  else do
    let b ← urlparse base ""
    let r ← urlparse url b.scheme
    if r.scheme ≠ b.scheme ∨ ¬ usesRelative.contains r.scheme then
      return url
    else
      let stage1 : Option String :=
        if usesNetloc.contains r.scheme ∧ r.netloc ≠ "" then
          some (urlunparse r.scheme r.netloc r.path r.params r.query r.fragment)
        else none
      match stage1 with
      | some out => return out
      | none =>
        let netloc := if usesNetloc.contains r.scheme then b.netloc else r.netloc
        if r.path = "" ∧ r.params = "" then
          let query := if r.query = "" then b.query else r.query
          return urlunparse r.scheme netloc b.path b.params query r.fragment
        else
          let baseParts0 := splitChar b.path '/'
          let baseParts :=
            if baseParts0.getLast? ≠ some "" then baseParts0.dropLast else baseParts0
          let segments :=
            if r.path.data.take 1 = ['/'] then splitChar r.path '/'
            else filterInner (baseParts ++ splitChar r.path '/')
          let resolved0 := resolveSegs segments []
          let resolved :=
            if segments.getLast? = some "." ∨ segments.getLast? = some ".." then
              resolved0 ++ [""]
            else resolved0
          let joined := joinChar '/' resolved
          let path := if joined = "" then "/" else joined
          return urlunparse r.scheme netloc path r.params r.query r.fragment

end Url

namespace Crawler

/-- The whitespace class of Python `str.split()` / `str.strip()` (ASCII). -/
def pyIsSpace (c : Char) : Bool :=
  c = ' ' || c = '\t' || c = '\n' || c = '\r' || c = '\x0b' || c = '\x0c'

/-- Python `str.split()` with no argument: the maximal runs of
non-whitespace characters. -/
def pySplitAux : List Char → List Char → List (List Char)
  | [], acc => if acc = [] then [] else [acc.reverse]
  | c :: cs, acc =>
    if pyIsSpace c then
      if acc = [] then pySplitAux cs [] else acc.reverse :: pySplitAux cs []
    else pySplitAux cs (c :: acc)

def pyWords (cs : List Char) : List (List Char) := pySplitAux cs []

/-- Python `' '.join(words)` at the character level. -/
def joinWords : List (List Char) → List Char
  | [] => []
  | [w] => w
  | w :: v :: ws => w ++ ' ' :: joinWords (v :: ws)

/-- `EnhancedSEOCrawler.clean_text`: `"" ` for falsy input, otherwise
`' '.join(str(text).split())`. -/
def clean_text (s : String) : String :=
  if s = "" then "" else String.mk (joinWords (pyWords s.data))

/-- Python `str.strip()` restricted to ASCII whitespace. -/
def pyStrip (s : String) : String :=
  String.mk (((s.data.dropWhile pyIsSpace).reverse.dropWhile pyIsSpace).reverse)

def isWordChar (c : Char) : Bool := c.isAlphanum || c = '_'

/-- Number of maximal word-character runs; the `inRun` flag says whether the
previous character was a word character. -/
def countRunsAux : List Char → Bool → Nat
  | [], _ => 0
  | c :: cs, inRun =>
    if isWordChar c then (if inRun then 0 else 1) + countRunsAux cs true
    else countRunsAux cs false

/-- `EnhancedSEOCrawler.count_words`: `len(re.findall(r'\b\w+\b', text))`,
i.e. the number of maximal `\w` runs (`\w` taken as ASCII `[A-Za-z0-9_]`;
the Unicode extension of `\w` is outside this model). -/
def count_words (s : String) : Nat :=
  if s = "" then 0 else countRunsAux s.data false

/-- The `SEOMetrics` dataclass, with its field defaults. -/
structure SEOMetrics where
  url : String
  status_code : Nat := 0
  title : String := ""
  meta_description : String := ""
  h1 : String := ""
  h2s : List String := []
  canonical : String := ""
  meta_robots : String := ""
  word_count : Nat := 0
  internal_links : Nat := 0
  external_links : Nat := 0
  image_count : Nat := 0
  images_with_alt : Nat := 0
deriving DecidableEq

/-- Python `sep.join(parts)`. -/
def joinStr (sep : String) : List String → String
  | [] => ""
  | [x] => x
  | x :: y :: xs => x ++ sep ++ joinStr sep (y :: xs)

/-- The cell values of `SEOMetrics.to_dict`.  `pct a b` stands for the
formatted string `f"{(a / b * 100):.1f}%"`; the binary float formatting
itself is kept abstract (the column contract does not depend on it). -/
inductive CsvVal where
  | s : String → CsvVal
  | n : Nat → CsvVal
  | pct : Nat → Nat → CsvVal
deriving DecidableEq

/-- `SEOMetrics.to_dict`, as the ordered list of (column name, value). -/
def to_dict (m : SEOMetrics) : List (String × CsvVal) :=
  [("URL", CsvVal.s m.url),
   ("Status Code", CsvVal.n m.status_code),
   ("Title", CsvVal.s m.title),
   ("Meta Description", CsvVal.s m.meta_description),
   ("H1", CsvVal.s m.h1),
   ("H2s", CsvVal.s (if m.h2s = [] then "" else joinStr " | " m.h2s)),
   ("Canonical", CsvVal.s m.canonical),
   ("Meta Robots", CsvVal.s m.meta_robots),
   ("Word Count", CsvVal.n m.word_count),
   ("Internal Links", CsvVal.n m.internal_links),
   ("External Links", CsvVal.n m.external_links),
   ("Image Count", CsvVal.n m.image_count),
   ("Images with Alt", CsvVal.n m.images_with_alt),
   ("Alt Text Coverage",
     if 0 < m.image_count then CsvVal.pct m.images_with_alt m.image_count
     else CsvVal.s "N/A")]

/-- Abstraction of a parsed BeautifulSoup document: exactly the queries that
`extract_seo_data` and the crawl loop perform on the soup.

`titleTag` is `soup.title` (present or not) together with its `.string`
(which BeautifulSoup makes `None` when the element does not have exactly one
child node).  `metaDescContent` is the `content` attribute (with the `.get`
default `''`) of `soup.find('meta', name='description') or
soup.find('meta', property='og:description')`, `none` when neither tag
exists; `canonicalHref` and `robotsContent` are analogous.  `h1Text` is
`get_text()` of the first `h1`; `h2Texts` lists `get_text()` of every `h2`.
`bodyText` is `soup.get_text(separator=' ', strip=True)` after
`get_visible_text` has removed script/style/nav/footer/header/iframe
subtrees and comments.  `anchors` lists the `href` of every `a[href]` and
`imageAlts` the `alt` attribute of every `img`; both `find_all` calls run
after that same removal (extraction mutates the soup the crawl loop then
reuses), so one list per document is the faithful view. -/
structure Doc where
  titleTag : Option (Option String) := none
  metaDescContent : Option String := none
  h1Text : Option String := none
  h2Texts : List String := []
  canonicalHref : Option String := none
  robotsContent : Option String := none
  bodyText : String := ""
  anchors : List String := []
  imageAlts : List (Option String) := []
deriving DecidableEq

/-- `EnhancedSEOCrawler.is_internal_url`; `Except.error` is the `ValueError`
that `urlparse` can raise, which propagates to this function's caller. -/
def is_internal_url (domain url : String) : Except String Bool :=
  (Url.urlparse url).map fun p => p.netloc = "" || p.netloc = domain

/-- `EnhancedSEOCrawler.get_absolute_url`:
`urljoin(self.base_url, url.split('#')[0])`. -/
def get_absolute_url (base_url url : String) : Except String String :=
  Url.urljoin base_url (Url.splitOnceChar url '#').1

/-- `sum(1 for link in all_links if self.is_internal_url(link.get('href', '')))`,
raising at the first href on which `urlparse` raises. -/
def countInternal (domain : String) : List String → Except String Nat
  | [] => Except.ok 0
  | h :: t => do
    let b ← is_internal_url domain h
    let n ← countInternal domain t
    return (if b then n + 1 else n)

/-- `EnhancedSEOCrawler.extract_seo_data`.  Within this model the only
statement of its try block that can raise is the internal-link count
(`urlparse` on a malformed href); when it raises, the except clause leaves
the link and image fields at the dataclass defaults and the partially
filled record is still returned. -/
def extract_seo_data (domain : String) (d : Doc) (url : String) (status_code : Nat) : SEOMetrics :=
  let title := match d.titleTag with
    | none => ""
    | some none => ""
    | some (some s) => clean_text s
  let meta_description := match d.metaDescContent with
    | none => ""
    | some c => clean_text c
  let h1 := match d.h1Text with
    | none => ""
    | some t => clean_text t
  let h2s := (d.h2Texts.take 3).map clean_text
  let canonical := d.canonicalHref.getD ""
  let meta_robots := d.robotsContent.getD ""
  let word_count := count_words (clean_text d.bodyText)
  let base : SEOMetrics :=
    { url := url, status_code := status_code, title := title,
      meta_description := meta_description, h1 := h1, h2s := h2s,
      canonical := canonical, meta_robots := meta_robots,
      word_count := word_count }
  match countInternal domain d.anchors with
  | Except.error _ => base
  | Except.ok k =>
    { base with
      internal_links := k,
      external_links := d.anchors.length - k,
      image_count := d.imageAlts.length,
      images_with_alt := d.imageAlts.countP (fun a => !(pyStrip (a.getD "") == "")) }

/-- `requests.Response`, restricted to what the crawl loop reads. -/
structure Fetched where
  status_code : Nat
  content : String
  doc : Doc
deriving DecidableEq

/-- The fixed data of one crawler instance: constructor arguments plus the
network, abstracted as an oracle from URL to fetch outcome (`none` models
`session.get` raising). -/
structure Env where
  base_url : String
  domain : String
  max_pages : Nat
  fetch : String → Option Fetched

/-- The mutable state of `EnhancedSEOCrawler.crawl`: `visited_urls` (kept as
a duplicate-free list, so its length is the `len` of the Python set),
`to_visit` (head = next `popleft`) and `results`. -/
structure CrawlState where
  visited : List String
  toVisit : List String
  results : List SEOMetrics
deriving DecidableEq

/-- The link-discovery loop at the bottom of the crawl iteration: for each
anchor href, if `is_internal_url(href)` then resolve and append to the queue
unless the absolute URL is already visited or queued.  An exception from
either URL helper aborts the remaining iterations (it is caught by the
per-page handler after the result was already appended). -/
def enqueueLinks (env : Env) (visited : List String) : List String → List String → List String
  | [], q => q
  | href :: hs, q =>
    match is_internal_url env.domain href with
    | Except.error _ => q
    | Except.ok false => enqueueLinks env visited hs q
    | Except.ok true =>
      match get_absolute_url env.base_url href with
      | Except.error _ => q
      | Except.ok absUrl =>
        if absUrl ∈ visited ∨ absUrl ∈ q then enqueueLinks env visited hs q
        else enqueueLinks env visited hs (q ++ [absUrl])

/-- The body of one `while` iteration of `EnhancedSEOCrawler.crawl`, after
`url` has been dequeued and `rest` is the remaining queue: the visited-set
recheck, the fetch (failure caught, `finally` still marking visited), the
empty-content skip, and on success extract + append + link discovery. -/
def processUrl (env : Env) (url : String) (rest : List String) (s : CrawlState) : CrawlState :=
  if url ∈ s.visited then { s with toVisit := rest }
  else
    match env.fetch url with
    | none => ⟨url :: s.visited, rest, s.results⟩
    | some f =>
      if f.content = "" then ⟨url :: s.visited, rest, s.results⟩
      else
        let seo := extract_seo_data env.domain f.doc url f.status_code
        ⟨url :: s.visited, enqueueLinks env s.visited f.doc.anchors rest,
         s.results ++ [seo]⟩

/-- The loop guard of `crawl` (`while self.to_visit and len(self.visited_urls)
< self.max_pages`) plus the dequeue: `none` when the loop exits. -/
def step (env : Env) (s : CrawlState) : Option CrawlState :=
  match s.toVisit with
  | [] => none
  | url :: rest =>
    if s.visited.length < env.max_pages then some (processUrl env url rest s)
    else none

theorem step_shape {env : Env} {s s' : CrawlState} (h : step env s = some s') :
    ∃ url rest, s.toVisit = url :: rest ∧ s.visited.length < env.max_pages ∧
      s' = processUrl env url rest s := by
  unfold step at h
  split at h
  · exact absurd h (by simp)
  · rename_i url rest hq
    split at h
    · rename_i hg
      refine ⟨url, rest, hq, hg, ?_⟩
      injection h with h
      exact h.symm
    · exact absurd h (by simp)

theorem processUrl_measure (env : Env) (url : String) (rest : List String)
    (s : CrawlState) :
    ((processUrl env url rest s).visited = s.visited ∧
      (processUrl env url rest s).toVisit = rest) ∨
    (processUrl env url rest s).visited = url :: s.visited := by
  unfold processUrl
  split
  · exact Or.inl ⟨rfl, rfl⟩
  · split
    · exact Or.inr rfl
    · split
      · exact Or.inr rfl
      · exact Or.inr rfl

/-- The crawl loop run to completion (termination is by the measure the spec
names: the visited set grows towards the page budget, and an iteration that
does not grow it shortens the queue). -/
def crawlLoop (env : Env) (s : CrawlState) : CrawlState :=
  match h : step env s with
  | none => s
  | some s' => crawlLoop env s'
termination_by (env.max_pages - s.visited.length, s.toVisit.length)
decreasing_by
  obtain ⟨url, rest, hq, hg, hs'⟩ := step_shape h
  rcases processUrl_measure env url rest s with ⟨h1, h2⟩ | h1
  · rw [hs', h1, h2, hq]
    exact Prod.Lex.right _ (by simp)
  · rw [hs', h1]
    exact Prod.Lex.left _ _ (by simp only [List.length_cons]; omega)

/-- `__init__`: frontier seeded with the base URL. -/
def initState (env : Env) : CrawlState := ⟨[], [env.base_url], []⟩

/-- `EnhancedSEOCrawler.crawl()` from a fresh crawler. -/
def crawl (env : Env) : CrawlState := crawlLoop env (initState env)

/-- Fuel-bounded variant of the loop, used to evaluate concrete runs. -/
def runFuel (env : Env) : Nat → CrawlState → Option CrawlState
  | 0, _ => none
  | n + 1, s =>
    match step env s with
    | none => some s
    | some s' => runFuel env n s'

theorem crawlLoop_eq (env : Env) (s : CrawlState) :
    crawlLoop env s = match step env s with
      | none => s
      | some s' => crawlLoop env s' := by
  rw [crawlLoop]
  cases hs : step env s with
  | none => rfl
  | some s' => rfl

theorem runFuel_sound {env : Env} :
    ∀ (n : Nat) {s t : CrawlState}, runFuel env n s = some t → crawlLoop env s = t := by
  intro n
  induction n with
  | zero => intro s t h; exact absurd h (by simp [runFuel])
  | succ n ih =>
    intro s t h
    rw [crawlLoop_eq]
    unfold runFuel at h
    cases hs : step env s with
    | none => rw [hs] at h; simpa using h
    | some s' => rw [hs] at h; exact ih h

/-- `EnhancedSEOCrawler.__init__`: `self.domain = urlparse(base_url).netloc`;
the `Except` propagates the `ValueError` that `urlparse` can raise there. -/
def mkEnv (fetch : String → Option Fetched) (base_url : String) (max_pages : Nat) :
    Except String Env :=
  (Url.urlparse base_url).map fun p => ⟨base_url, p.netloc, max_pages, fetch⟩

/-- `main()`: construct the crawler, crawl, save, returning the exit status.
Every exception is caught and turns into exit code 1.  In this model the
only raising statement is `urlparse` in `__init__`: `crawl` catches all
per-page errors and `KeyboardInterrupt` internally, and `save_to_csv` with
an empty result list just prints a message (file-system failures while
persisting are outside the model). -/
def mainExit (fetch : String → Option Fetched) (base_url : String) (max_pages : Nat) : Nat :=
  match mkEnv fetch base_url max_pages with
  | Except.error _ => 1
  | Except.ok env =>
    let _ := crawl env
    0

end Crawler

namespace Crawler

/-- The absolute URLs that the link-discovery loop considers appending while
processing a page with the given anchor hrefs: internal hrefs resolved
against the base URL, in document order, cut short at the first href on
which a URL helper raises (mirroring `enqueueLinks` minus its queue
guards). -/
def linkTargets (env : Env) : List String → List String
  | [] => []
  | href :: hs =>
    match is_internal_url env.domain href with
    | Except.error _ => []
    | Except.ok false => linkTargets env hs
    | Except.ok true =>
      match get_absolute_url env.base_url href with
      | Except.error _ => []
      | Except.ok absUrl => absUrl :: linkTargets env hs

/-- Out-edges of a page in the crawl graph: the link targets discovered when
its fetch succeeds with non-empty content, nothing otherwise. -/
def pageLinks (env : Env) (u : String) : List String :=
  match env.fetch u with
  | none => []
  | some f => if f.content = "" then [] else linkTargets env f.doc.anchors

/-- Reachability from the seed along discovered links in exactly `n` steps. -/
inductive ReachN (env : Env) : Nat → String → Prop
  | zero : ReachN env 0 env.base_url
  | succ {n : Nat} {u v : String} :
      ReachN env n u → v ∈ pageLinks env u → ReachN env (n + 1) v

/-- A page of the reachable in-domain page graph. -/
def Reach (env : Env) (u : String) : Prop := ∃ n, ReachN env n u

/-- `u` lies at graph distance `d` from the seed: reachable in `d` steps and
in no fewer. -/
def hasDist (env : Env) (u : String) (d : Nat) : Prop :=
  ReachN env d u ∧ ∀ k < d, ¬ ReachN env k u

theorem reachN_zero {env : Env} {u : String} (h : ReachN env 0 u) : u = env.base_url := by
  cases h
  rfl

theorem hasDist_unique {env : Env} {u : String} {d d' : Nat}
    (h : hasDist env u d) (h' : hasDist env u d') : d = d' := by
  rcases Nat.lt_trichotomy d d' with hlt | heq | hgt
  · exact absurd h.1 (h'.2 d hlt)
  · exact heq
  · exact absurd h'.1 (h.2 d' hgt)

theorem reach_hasDist {env : Env} {u : String} (h : Reach env u) :
    ∃ d, hasDist env u d := by
  obtain ⟨n, hn⟩ := h
  classical
  have hne : {k : Nat | ReachN env k u}.Nonempty := ⟨n, hn⟩
  refine ⟨sInf {k : Nat | ReachN env k u}, Nat.sInf_mem hne, ?_⟩
  intro k hk
  exact Nat.not_mem_of_lt_sInf hk

/-- States visited by the crawl loop, growing forward from `s`. -/
inductive Reaches (env : Env) : CrawlState → CrawlState → Prop
  | refl (s : CrawlState) : Reaches env s s
  | head {s s' t : CrawlState} :
      step env s = some s' → Reaches env s' t → Reaches env s t

theorem reaches_preserves {env : Env} {P : CrawlState → Prop}
    (hstep : ∀ s s', P s → step env s = some s' → P s') :
    ∀ {s t : CrawlState}, Reaches env s t → P s → P t := by
  intro s t h
  induction h with
  | refl s => exact id
  | head hst _ ih => exact fun hp => ih (hstep _ _ hp hst)

theorem reaches_crawlLoop (env : Env) (s : CrawlState) :
    Reaches env s (crawlLoop env s) := by
  induction s using crawlLoop.induct env with
  | case1 s h => rw [crawlLoop_eq, h]; exact Reaches.refl s
  | case2 s s' h ih =>
    rw [crawlLoop_eq, h]
    exact Reaches.head h ih

/-- Characterisation of the link-discovery loop: it appends to the queue a
duplicate-free batch of exactly those link targets that are neither visited
nor already queued. -/
theorem enqueueLinks_spec (env : Env) (visited : List String) :
    ∀ (hs q : List String), ∃ new,
      enqueueLinks env visited hs q = q ++ new ∧
      new.Nodup ∧
      (∀ v ∈ new, v ∈ linkTargets env hs ∧ v ∉ visited ∧ v ∉ q) ∧
      (∀ v, v ∈ linkTargets env hs → v ∉ visited → v ∉ q → v ∈ new) := by
  intro hs
  induction hs with
  | nil =>
    intro q
    exact ⟨[], by simp [enqueueLinks], List.nodup_nil, by simp, by simp [linkTargets]⟩
  | cons href t ih =>
    intro q
    cases hint : is_internal_url env.domain href with
    | error e =>
      refine ⟨[], ?_, List.nodup_nil, by simp, ?_⟩
      · simp [enqueueLinks, hint]
      · simp [linkTargets, hint]
    | ok b =>
      cases b with
      | false =>
        obtain ⟨new, h1, h2, h3, h4⟩ := ih q
        refine ⟨new, ?_, h2, ?_, ?_⟩
        · rw [enqueueLinks, hint]
          exact h1
        · rw [linkTargets, hint]
          exact h3
        · rw [linkTargets, hint]
          exact h4
      | true =>
        cases habs : get_absolute_url env.base_url href with
        | error e =>
          refine ⟨[], ?_, List.nodup_nil, by simp, ?_⟩
          · simp [enqueueLinks, hint, habs]
          · simp [linkTargets, hint, habs]
        | ok absUrl =>
          simp only [enqueueLinks, linkTargets, hint, habs]
          by_cases hmem : absUrl ∈ visited ∨ absUrl ∈ q
          · rw [if_pos hmem]
            obtain ⟨new, h1, h2, h3, h4⟩ := ih q
            refine ⟨new, h1, h2, fun v hv => ?_, fun v hv hnv hnq => ?_⟩
            · obtain ⟨hv1, hv2, hv3⟩ := h3 v hv
              exact ⟨List.mem_cons_of_mem _ hv1, hv2, hv3⟩
            · rcases List.mem_cons.mp hv with rfl | hv'
              · rcases hmem with hm | hm
                · exact absurd hm hnv
                · exact absurd hm hnq
              · exact h4 v hv' hnv hnq
          · rw [if_neg hmem]
            push_neg at hmem
            obtain ⟨new, h1, h2, h3, h4⟩ := ih (q ++ [absUrl])
            have habsnew : absUrl ∉ new := fun hin =>
              (h3 absUrl hin).2.2 (by simp)
            refine ⟨absUrl :: new, ?_, ?_, fun v hv => ?_, fun v hv hnv hnq => ?_⟩
            · rw [h1, List.append_assoc]
              rfl
            · exact List.nodup_cons.mpr ⟨habsnew, h2⟩
            · rcases List.mem_cons.mp hv with rfl | hv'
              · exact ⟨List.mem_cons_self _ _, hmem.1, hmem.2⟩
              · obtain ⟨hv1, hv2, hv3⟩ := h3 v hv'
                refine ⟨List.mem_cons_of_mem _ hv1, hv2, fun hq => hv3 ?_⟩
                exact List.mem_append_left _ hq
            · rcases List.mem_cons.mp hv with rfl | hv'
              · exact List.mem_cons_self _ _
              · by_cases hva : v = absUrl
                · subst hva; exact List.mem_cons_self _ _
                · refine List.mem_cons_of_mem _ (h4 v hv' hnv ?_)
                  intro hq
                  rcases List.mem_append.mp hq with hq' | hq'
                  · exact hnq hq'
                  · exact hva (List.mem_singleton.mp hq')

end Crawler

namespace Crawler

theorem extract_seo_data_url (domain : String) (d : Doc) (url : String) (st : Nat) :
    (extract_seo_data domain d url st).url = url := by
  cases h : countInternal domain d.anchors with
  | error e => simp [extract_seo_data, h]
  | ok k => simp [extract_seo_data, h]

/-- The three possible outcomes of one loop iteration on a dequeued `url`. -/
theorem processUrl_cases (env : Env) (url : String) (rest : List String) (s : CrawlState) :
    (url ∈ s.visited ∧ processUrl env url rest s = ⟨s.visited, rest, s.results⟩) ∨
    (url ∉ s.visited ∧ pageLinks env url = [] ∧
      processUrl env url rest s = ⟨url :: s.visited, rest, s.results⟩) ∨
    (url ∉ s.visited ∧ ∃ f, env.fetch url = some f ∧
      pageLinks env url = linkTargets env f.doc.anchors ∧
      processUrl env url rest s =
        ⟨url :: s.visited, enqueueLinks env s.visited f.doc.anchors rest,
         s.results ++ [extract_seo_data env.domain f.doc url f.status_code]⟩) := by
  unfold processUrl
  split
  · rename_i hv
    exact Or.inl ⟨hv, rfl⟩
  · rename_i hv
    split
    · rename_i hf
      refine Or.inr (Or.inl ⟨hv, ?_, rfl⟩)
      simp [pageLinks, hf]
    · rename_i f hf
      split
      · rename_i hc
        refine Or.inr (Or.inl ⟨hv, ?_, rfl⟩)
        simp [pageLinks, hf, hc]
      · rename_i hc
        refine Or.inr (Or.inr ⟨hv, f, hf, ?_, rfl⟩)
        simp [pageLinks, hf, hc]

/-- Loop invariants of `crawl` that do not mention distances: both the
visited list and the frontier are duplicate-free, the visited list respects
the budget, results never outnumber visited URLs, every result belongs to a
visited URL, result URLs are pairwise distinct, and everything visited or
queued is reachable from the seed. -/
structure BasicInv (env : Env) (s : CrawlState) : Prop where
  visNodup : s.visited.Nodup
  queueNodup : s.toVisit.Nodup
  visLe : s.visited.length ≤ env.max_pages
  resLe : s.results.length ≤ s.visited.length
  resVis : ∀ r ∈ s.results, r.url ∈ s.visited
  resNodup : (s.results.map (fun r => r.url)).Nodup
  visReach : ∀ u ∈ s.visited, Reach env u
  queueReach : ∀ u ∈ s.toVisit, Reach env u

theorem basicInv_init (env : Env) : BasicInv env (initState env) := by
  refine ⟨List.nodup_nil, List.nodup_singleton _, ?_, ?_, ?_, ?_, ?_, ?_⟩
  · simp [initState]
  · simp [initState]
  · simp [initState]
  · simp [initState]
  · simp [initState]
  · intro u hu
    have : u = env.base_url := by simpa [initState] using hu
    exact this ▸ ⟨0, ReachN.zero⟩

theorem basicInv_step {env : Env} {s s' : CrawlState}
    (hstep : step env s = some s') (hinv : BasicInv env s) : BasicInv env s' := by
  obtain ⟨url, rest, hq, hg, hs'⟩ := step_shape hstep
  have hqn : rest.Nodup := by
    have := hinv.queueNodup
    rw [hq] at this
    exact this.of_cons
  have hrreach : ∀ u ∈ rest, Reach env u := fun u hu =>
    hinv.queueReach u (by rw [hq]; exact List.mem_cons_of_mem _ hu)
  have hureach : Reach env url :=
    hinv.queueReach url (by rw [hq]; exact List.mem_cons_self _ _)
  rcases processUrl_cases env url rest s with ⟨hv, he⟩ | ⟨hv, _hpl, he⟩ | ⟨hv, f, hf, hpl, he⟩
  · rw [hs', he]
    exact ⟨hinv.visNodup, hqn, hinv.visLe, hinv.resLe, hinv.resVis, hinv.resNodup,
      hinv.visReach, hrreach⟩
  · rw [hs', he]
    refine ⟨List.nodup_cons.mpr ⟨hv, hinv.visNodup⟩, hqn, ?_, ?_, ?_, hinv.resNodup, ?_, hrreach⟩
    · simpa using hg
    · exact Nat.le_succ_of_le hinv.resLe
    · exact fun r hr => List.mem_cons_of_mem _ (hinv.resVis r hr)
    · intro u hu
      rcases List.mem_cons.mp hu with rfl | hu'
      · exact hureach
      · exact hinv.visReach u hu'
  · obtain ⟨new, hnew, hnodup, hsound, _hcomp⟩ :=
      enqueueLinks_spec env s.visited f.doc.anchors rest
    rw [hs', he, hnew]
    refine ⟨List.nodup_cons.mpr ⟨hv, hinv.visNodup⟩, ?_, ?_, ?_, ?_, ?_, ?_, ?_⟩
    · refine List.Nodup.append hqn hnodup ?_
      intro a ha hanew
      exact (hsound a hanew).2.2 ha
    · simpa using hg
    · simpa using Nat.succ_le_succ hinv.resLe
    · intro r hr
      rcases List.mem_append.mp hr with hr' | hr'
      · exact List.mem_cons_of_mem _ (hinv.resVis r hr')
      · have : r = extract_seo_data env.domain f.doc url f.status_code :=
          List.mem_singleton.mp hr'
        rw [this, extract_seo_data_url]
        exact List.mem_cons_self _ _
    · rw [List.map_append]
      refine List.Nodup.append hinv.resNodup ?_ ?_
      · simp
      · intro a ha hb
        have ha' : ∃ r ∈ s.results, r.url = a := by
          simpa using ha
        have hb' : a = url := by
          simpa [extract_seo_data_url] using hb
        obtain ⟨r, hr, hru⟩ := ha'
        exact hv (hb' ▸ hru ▸ hinv.resVis r hr)
    · intro u hu
      rcases List.mem_cons.mp hu with rfl | hu'
      · exact hureach
      · exact hinv.visReach u hu'
    · intro u hu
      rcases List.mem_append.mp hu with hu' | hu'
      · exact hrreach u hu'
      · obtain ⟨ht, _, _⟩ := hsound u hu'
        obtain ⟨n, hn⟩ := hureach
        refine ⟨n + 1, ReachN.succ hn ?_⟩
        rw [hpl]
        exact ht

theorem basicInv_reaches {env : Env} {s : CrawlState}
    (h : Reaches env (initState env) s) : BasicInv env s :=
  reaches_preserves (fun _ _ hp hst => basicInv_step hst hp) h (basicInv_init env)

/-- Invariant behind the seed-first property: while no result exists, the
frontier contains only the seed, and once results exist the first one is the
seed record. -/
def SeedInv (env : Env) (s : CrawlState) : Prop :=
  (s.results = [] → ∀ u ∈ s.toVisit, u = env.base_url) ∧
  (∀ r rs, s.results = r :: rs → r.url = env.base_url)

theorem seedInv_init (env : Env) : SeedInv env (initState env) := by
  constructor
  · intro _ u hu
    simpa [initState] using hu
  · intro r rs h
    exact absurd h (by simp [initState])

theorem seedInv_step {env : Env} {s s' : CrawlState}
    (hstep : step env s = some s') (hinv : SeedInv env s) : SeedInv env s' := by
  obtain ⟨url, rest, hq, _hg, hs'⟩ := step_shape hstep
  rcases processUrl_cases env url rest s with ⟨_hv, he⟩ | ⟨_hv, _hpl, he⟩ | ⟨_hv, f, _hf, _hpl, he⟩
  · rw [hs', he]
    exact ⟨fun hres u hu => hinv.1 hres u (by rw [hq]; exact List.mem_cons_of_mem _ hu),
      hinv.2⟩
  · rw [hs', he]
    exact ⟨fun hres u hu => hinv.1 hres u (by rw [hq]; exact List.mem_cons_of_mem _ hu),
      hinv.2⟩
  · rw [hs', he]
    constructor
    · intro hres
      exact absurd hres (by simp)
    · intro r rs h
      cases hres : s.results with
      | nil =>
        rw [hres] at h
        simp only [List.nil_append] at h
        have hr : r = extract_seo_data env.domain f.doc url f.status_code := by
          injection h with h1 h2
          exact h1.symm
        rw [hr, extract_seo_data_url]
        exact hinv.1 hres url (by rw [hq]; exact List.mem_cons_self _ _)
      | cons r0 rs0 =>
        rw [hres] at h
        simp only [List.cons_append] at h
        have hr : r = r0 := by
          injection h with h1 h2
          exact h1.symm
        exact hr ▸ hinv.2 r0 rs0 hres

theorem seedInv_reaches {env : Env} {s : CrawlState}
    (h : Reaches env (initState env) s) : SeedInv env s :=
  reaches_preserves (fun _ _ hp hst => seedInv_step hst hp) h (seedInv_init env)

end Crawler

namespace Crawler

theorem reachN_succ_inv {env : Env} {n : Nat} {v : String} (h : ReachN env (n + 1) v) :
    ∃ u, ReachN env n u ∧ v ∈ pageLinks env u := by
  cases h with
  | succ hu hv => exact ⟨_, hu, hv⟩

/-- The breadth-first invariant at layer `d` with the frontier split into a
current-layer part `Q1` and a next-layer part `Q2`: unvisited queued URLs of
`Q1` sit at distance `d` and those of `Q2` at `d + 1`; everything reachable
in fewer than `d` steps is visited and everything reachable in at most `d`
steps is visited or queued; links of visited pages are visited or queued;
every emitted record sits at distance at most `d`; and the result sequence
is nondecreasing in distance. -/
def BfsAt (env : Env) (s : CrawlState) (d : Nat) (Q1 Q2 : List String) : Prop :=
  s.toVisit = Q1 ++ Q2 ∧
  (∀ u ∈ Q1, u ∉ s.visited → hasDist env u d) ∧
  (∀ u ∈ Q2, u ∉ s.visited → hasDist env u (d + 1)) ∧
  (∀ x k, k < d → ReachN env k x → x ∈ s.visited) ∧
  (∀ x k, k ≤ d → ReachN env k x → x ∈ s.visited ∨ x ∈ s.toVisit) ∧
  (∀ u ∈ s.visited, ∀ x ∈ pageLinks env u, x ∈ s.visited ∨ x ∈ s.toVisit) ∧
  (∀ r ∈ s.results, ∀ dr, hasDist env r.url dr → dr ≤ d) ∧
  List.Pairwise
    (fun a b => ∀ da db, hasDist env a.url da → hasDist env b.url db → da ≤ db)
    s.results

def BfsInv (env : Env) (s : CrawlState) : Prop := ∃ d Q1 Q2, BfsAt env s d Q1 Q2

/-- Layer change: when the current-layer part of the frontier is exhausted
the whole invariant moves to layer `d + 1`. -/
theorem bfsAt_shift {env : Env} {s : CrawlState} {d : Nat} {Q2 : List String}
    (h : BfsAt env s d [] Q2) : BfsAt env s (d + 1) Q2 [] := by
  obtain ⟨hq, _h1, h2, _h3, h4, h5, h6, h7⟩ := h
  rw [List.nil_append] at hq
  refine ⟨by rw [hq, List.append_nil], h2, ?_, ?_, ?_, h5, ?_, h7⟩
  · intro u hu _
    exact absurd hu (List.not_mem_nil u)
  · intro x k hk hr
    have hk' : k ≤ d := Nat.lt_succ_iff.mp hk
    rcases h4 x k hk' hr with hx | hx
    · exact hx
    · by_cases hvis : x ∈ s.visited
      · exact hvis
      · have hd := h2 x (by rw [← hq]; exact hx) hvis
        exact absurd hr (hd.2 k hk)
  · intro x k hk hr
    by_cases hkd : k ≤ d
    · exact h4 x k hkd hr
    · have hk1 : k = d + 1 := by omega
      subst hk1
      obtain ⟨y, hy, hxy⟩ := reachN_succ_inv hr
      rcases h4 y d (le_refl d) hy with hyv | hyq
      · exact h5 y hyv x hxy
      · by_cases hyvis : y ∈ s.visited
        · exact h5 y hyvis x hxy
        · have hdy := h2 y (by rw [← hq]; exact hyq) hyvis
          exact absurd hy (hdy.2 d (Nat.lt_succ_self d))
  · intro r hr dr hdr
    exact Nat.le_succ_of_le (h6 r hr dr hdr)

/-- When the frontier is nonempty the invariant can be presented with the
dequeued URL at the head of the current-layer part. -/
theorem bfsInv_head {env : Env} {s : CrawlState} {u : String} {rest : List String}
    (h : BfsInv env s) (hq : s.toVisit = u :: rest) :
    ∃ d Q1t Q2, BfsAt env s d (u :: Q1t) Q2 ∧ rest = Q1t ++ Q2 := by
  obtain ⟨d, Q1, Q2, hat⟩ := h
  cases Q1 with
  | nil =>
    have hat' := bfsAt_shift hat
    have hq2 : Q2 = u :: rest := by
      have h1 := hat'.1
      rw [hq, List.append_nil] at h1
      exact h1.symm
    subst hq2
    refine ⟨d + 1, rest, [], ?_, by simp⟩
    exact hat'
  | cons a Q1t =>
    have h1 := hat.1
    rw [hq, List.cons_append] at h1
    have ha : u = a := by
      injection h1 with h1a h1b
    have hrest : rest = Q1t ++ Q2 := by
      injection h1 with h1a h1b
    subst ha
    exact ⟨d, Q1t, Q2, hat, hrest⟩

theorem bfsInv_init (env : Env) : BfsInv env (initState env) := by
  refine ⟨0, [env.base_url], [], ?_, ?_, ?_, ?_, ?_, ?_, ?_, ?_⟩
  · simp [initState]
  · intro u hu _
    have he : u = env.base_url := by simpa using hu
    subst he
    exact ⟨ReachN.zero, fun k hk => absurd hk (Nat.not_lt_zero k)⟩
  · intro u hu _
    exact absurd hu (List.not_mem_nil u)
  · intro x k hk _
    exact absurd hk (Nat.not_lt_zero k)
  · intro x k hk hr
    have hk0 : k = 0 := Nat.le_zero.mp hk
    subst hk0
    have hx := reachN_zero hr
    subst hx
    right
    simp [initState]
  · intro u hu
    simp [initState] at hu
  · intro r hr
    simp [initState] at hr
  · simp only [initState]
    exact List.Pairwise.nil


theorem bfsInv_step {env : Env} {s s' : CrawlState}
    (hstep : step env s = some s') (hinv : BfsInv env s) : BfsInv env s' := by
  obtain ⟨url, rest, hq, _hg, hs'⟩ := step_shape hstep
  obtain ⟨d, Q1t, Q2, hat, hrest⟩ := bfsInv_head hinv hq
  obtain ⟨_hqv, h1, h2, h3, h4, h5, h6, h7⟩ := hat
  have hmemQ : ∀ x, x ∈ rest → x ∈ Q1t ∨ x ∈ Q2 := by
    intro x hx
    rw [hrest] at hx
    exact List.mem_append.mp hx
  rcases processUrl_cases env url rest s with ⟨hv, he⟩ | ⟨hv, hpl, he⟩ | ⟨hv, f, hf, hpl, he⟩
  · -- dequeue-time duplicate: url already visited, state only loses the head
    rw [hs', he]
    refine ⟨d, Q1t, Q2, hrest, ?_, ?_, h3, ?_, ?_, h6, h7⟩
    · exact fun u hu => h1 u (List.mem_cons_of_mem _ hu)
    · exact h2
    · intro x k hk hr
      rcases h4 x k hk hr with hx | hx
      · exact Or.inl hx
      · rw [hq] at hx
        rcases List.mem_cons.mp hx with rfl | hx'
        · exact Or.inl hv
        · exact Or.inr hx'
    · intro u hu x hx
      rcases h5 u hu x hx with hx' | hx'
      · exact Or.inl hx'
      · rw [hq] at hx'
        rcases List.mem_cons.mp hx' with rfl | hx''
        · exact Or.inl hv
        · exact Or.inr hx''
  · -- fetch failure or empty body: url marked visited, no links, no record
    rw [hs', he]
    refine ⟨d, Q1t, Q2, hrest, ?_, ?_, ?_, ?_, ?_, h6, h7⟩
    · intro u hu hnv
      exact h1 u (List.mem_cons_of_mem _ hu) (fun hm => hnv (List.mem_cons_of_mem _ hm))
    · intro u hu hnv
      exact h2 u hu (fun hm => hnv (List.mem_cons_of_mem _ hm))
    · intro x k hk hr
      exact List.mem_cons_of_mem _ (h3 x k hk hr)
    · intro x k hk hr
      rcases h4 x k hk hr with hx | hx
      · exact Or.inl (List.mem_cons_of_mem _ hx)
      · rw [hq] at hx
        rcases List.mem_cons.mp hx with rfl | hx'
        · exact Or.inl (List.mem_cons_self _ _)
        · exact Or.inr hx'
    · intro u hu x hx
      rcases List.mem_cons.mp hu with rfl | hu'
      · rw [hpl] at hx
        exact absurd hx (List.not_mem_nil x)
      · rcases h5 u hu' x hx with hx' | hx'
        · exact Or.inl (List.mem_cons_of_mem _ hx')
        · rw [hq] at hx'
          rcases List.mem_cons.mp hx' with rfl | hx''
          · exact Or.inl (List.mem_cons_self _ _)
          · exact Or.inr hx''
  · -- successful fetch: record appended, links discovered
    have hud : hasDist env url d := h1 url (List.mem_cons_self _ _) hv
    obtain ⟨new, hnew, _hnodup, hsound, hcomp⟩ :=
      enqueueLinks_spec env s.visited f.doc.anchors rest
    have hnewdist : ∀ v ∈ new, v ∉ (url :: s.visited) → hasDist env v (d + 1) := by
      intro v hvn hnv
      obtain ⟨ht, hvvis, hvq⟩ := hsound v hvn
      have hvne : v ≠ url := fun hvu => hnv (hvu ▸ List.mem_cons_self _ _)
      constructor
      · refine ReachN.succ hud.1 ?_
        rw [hpl]
        exact ht
      · intro k hk hr
        have hk' : k ≤ d := Nat.lt_succ_iff.mp hk
        rcases h4 v k hk' hr with hx | hx
        · exact hvvis hx
        · rw [hq] at hx
          rcases List.mem_cons.mp hx with heq | hx'
          · exact hvne heq
          · exact hvq hx'
    rw [hs', he, hnew]
    refine ⟨d, Q1t, Q2 ++ new, ?_, ?_, ?_, ?_, ?_, ?_, ?_, ?_⟩
    · show rest ++ new = Q1t ++ (Q2 ++ new)
      rw [hrest, List.append_assoc]
    · intro u hu hnv
      exact h1 u (List.mem_cons_of_mem _ hu) (fun hm => hnv (List.mem_cons_of_mem _ hm))
    · intro u hu hnv
      rcases List.mem_append.mp hu with hu' | hu'
      · exact h2 u hu' (fun hm => hnv (List.mem_cons_of_mem _ hm))
      · exact hnewdist u hu' hnv
    · intro x k hk hr
      exact List.mem_cons_of_mem _ (h3 x k hk hr)
    · intro x k hk hr
      rcases h4 x k hk hr with hx | hx
      · exact Or.inl (List.mem_cons_of_mem _ hx)
      · rw [hq] at hx
        rcases List.mem_cons.mp hx with rfl | hx'
        · exact Or.inl (List.mem_cons_self _ _)
        · exact Or.inr (List.mem_append_left _ hx')
    · intro u hu x hx
      rcases List.mem_cons.mp hu with rfl | hu'
      · rw [hpl] at hx
        by_cases hxv : x ∈ s.visited
        · exact Or.inl (List.mem_cons_of_mem _ hxv)
        · by_cases hxq : x ∈ rest
          · exact Or.inr (List.mem_append_left _ hxq)
          · exact Or.inr (List.mem_append_right _ (hcomp x hx hxv hxq))
      · rcases h5 u hu' x hx with hx' | hx'
        · exact Or.inl (List.mem_cons_of_mem _ hx')
        · rw [hq] at hx'
          rcases List.mem_cons.mp hx' with rfl | hx''
          · exact Or.inl (List.mem_cons_self _ _)
          · exact Or.inr (List.mem_append_left _ hx'')
    · intro r hr dr hdr
      rcases List.mem_append.mp hr with hr' | hr'
      · exact h6 r hr' dr hdr
      · have hre : r = extract_seo_data env.domain f.doc url f.status_code :=
          List.mem_singleton.mp hr'
        rw [hre, extract_seo_data_url] at hdr
        exact Nat.le_of_eq (hasDist_unique hdr hud)
    · refine List.pairwise_append.mpr ⟨h7, List.pairwise_singleton _ _, ?_⟩
      intro a ha b hb da db hda hdb
      have hbe : b = extract_seo_data env.domain f.doc url f.status_code :=
        List.mem_singleton.mp hb
      rw [hbe, extract_seo_data_url] at hdb
      have hdb' : db = d := hasDist_unique hdb hud
      rw [hdb']
      exact h6 a ha da hda

theorem bfsInv_reaches {env : Env} {s : CrawlState}
    (h : Reaches env (initState env) s) : BfsInv env s :=
  reaches_preserves (fun _ _ hp hst => bfsInv_step hst hp) h (bfsInv_init env)

end Crawler

namespace Crawler

mutual

/-- Specification-side collapse, in-word state: copy characters until
whitespace starts a gap. -/
def collapseWord : List Char → List Char
  | [] => []
  | c :: cs => if pyIsSpace c then collapseGap cs else c :: collapseWord cs

/-- Specification-side collapse, in-gap state: swallow the whitespace run
and emit a single space only if another word follows. -/
def collapseGap : List Char → List Char
  | [] => []
  | c :: cs => if pyIsSpace c then collapseGap cs else ' ' :: c :: collapseWord cs

end

/-- Specification-side collapse, start state: drop leading whitespace. -/
def collapseStart : List Char → List Char
  | [] => []
  | c :: cs => if pyIsSpace c then collapseStart cs else c :: collapseWord cs

/-- The collapse the spec describes: every whitespace run between words
becomes one space, leading and trailing whitespace disappears. -/
def collapseWS (s : String) : String := String.mk (collapseStart s.data)

theorem pySplitAux_ne_nil :
    ∀ (cs acc : List Char), acc ≠ [] → pySplitAux cs acc ≠ [] := by
  intro cs
  induction cs with
  | nil =>
    intro acc h
    simp [pySplitAux, h]
  | cons c cs ih =>
    intro acc h
    by_cases hs : pyIsSpace c
    · simp [pySplitAux, hs, h]
    · simp only [pySplitAux, hs, if_false, Bool.false_eq_true]
      exact ih (c :: acc) (by simp)

theorem collapse_core : ∀ cs : List Char,
    ((pySplitAux cs [] = [] → collapseGap cs = []) ∧
     (pySplitAux cs [] ≠ [] →
       ' ' :: joinWords (pySplitAux cs []) = collapseGap cs)) ∧
    (∀ acc, acc ≠ [] →
      joinWords (pySplitAux cs acc) = acc.reverse ++ collapseWord cs) := by
  intro cs
  induction cs with
  | nil =>
    refine ⟨⟨fun _ => rfl, fun h => absurd rfl h⟩, ?_⟩
    intro acc h
    simp [pySplitAux, h, joinWords, collapseWord]
  | cons c cs ih =>
    obtain ⟨⟨ihq1, ihq2⟩, ihr⟩ := ih
    by_cases hs : pyIsSpace c
    · constructor
      · constructor
        · intro h
          simp only [pySplitAux, hs, if_true, reduceIte] at h
          simp only [collapseGap, hs, if_true, reduceIte]
          exact ihq1 h
        · intro h
          simp only [pySplitAux, hs, if_true, reduceIte] at h ⊢
          simp only [collapseGap, hs, if_true, reduceIte]
          exact ihq2 h
      · intro acc h
        simp only [pySplitAux, hs, if_true, reduceIte, h, if_false]
        simp only [collapseWord, hs, if_true, reduceIte]
        cases htail : pySplitAux cs [] with
        | nil =>
          simp only [htail, joinWords]
          rw [ihq1 htail, List.append_nil]
        | cons w ws =>
          show joinWords (acc.reverse :: w :: ws) = acc.reverse ++ collapseGap cs
          rw [joinWords]
          congr 1
          rw [← htail]
          exact ihq2 (by rw [htail]; exact List.cons_ne_nil w ws)
    · constructor
      · constructor
        · intro h
          exact absurd h (by
            simp only [pySplitAux, hs, if_false, Bool.false_eq_true]
            exact pySplitAux_ne_nil cs [c] (by simp))
        · intro _
          simp only [pySplitAux, hs, if_false, Bool.false_eq_true]
          simp only [collapseGap, hs, if_false, Bool.false_eq_true]
          rw [ihr [c] (by simp)]
          rfl
      · intro acc h
        simp only [pySplitAux, hs, if_false, Bool.false_eq_true]
        simp only [collapseWord, hs, if_false, Bool.false_eq_true]
        rw [ihr (c :: acc) (by simp)]
        simp

theorem joinWords_pyWords (cs : List Char) : joinWords (pyWords cs) = collapseStart cs := by
  induction cs with
  | nil => rfl
  | cons c cs ih =>
    by_cases hs : pyIsSpace c
    · show joinWords (pySplitAux (c :: cs) []) = collapseStart (c :: cs)
      simp only [pySplitAux, hs, if_true, reduceIte]
      simp only [collapseStart, hs, if_true, reduceIte]
      exact ih
    · show joinWords (pySplitAux (c :: cs) []) = collapseStart (c :: cs)
      simp only [pySplitAux, hs, if_false, Bool.false_eq_true]
      simp only [collapseStart, hs, if_false, Bool.false_eq_true]
      rw [(collapse_core cs).2 [c] (by simp)]
      rfl

/-- `clean_text` is exactly the collapse the spec describes: whitespace runs
shrink to single spaces and outer whitespace disappears. -/
theorem clean_text_eq_collapseWS (s : String) : clean_text s = collapseWS s := by
  unfold clean_text collapseWS
  by_cases h : s = ""
  · subst h
    rfl
  · rw [if_neg h]
    rw [joinWords_pyWords]

end Crawler

instance {ε α : Type} [DecidableEq ε] [DecidableEq α] : DecidableEq (Except ε α)
  | Except.error x, Except.error y =>
    if h : x = y then isTrue (by rw [h]) else isFalse (fun he => h (by injection he))
  | Except.error _, Except.ok _ => isFalse (fun he => Except.noConfusion he)
  | Except.ok _, Except.error _ => isFalse (fun he => Except.noConfusion he)
  | Except.ok x, Except.ok y =>
    if h : x = y then isTrue (by rw [h]) else isFalse (fun he => h (by injection he))

namespace Crawler

/-- A network on which every request raises. -/
def offlineFetch : String → Option Fetched := fun _ => none

/-- Crawler instance whose seed fetch raises a connection error. -/
def c1Env : Env := ⟨"http://offline.example", "offline.example", 5, offlineFetch⟩

def wDoc1 : Doc := { titleTag := some (some "Home"), anchors := ["/a"] }

def wDoc2 : Doc := {}

/-- A two-page site: the seed links to `/a`, which has no links. -/
def wFetch : String → Option Fetched := fun u =>
  if u = "http://w.example" then some ⟨200, "<html>", wDoc1⟩
  else if u = "http://w.example/a" then some ⟨200, "<html>", wDoc2⟩
  else none

def wEnv : Env := ⟨"http://w.example", "w.example", 10, wFetch⟩

/-- The two-page site crawled with a budget of one page. -/
def bEnv : Env := ⟨"http://w.example", "w.example", 1, wFetch⟩

/-- C1: the claim says a seed whose fetch raises still yields exactly one
PageRecord (status 0, empty fields).  On the code the per-page handler
swallows the exception without appending anything: the run below attempts
the seed, its fetch raises, and the output is empty — there is no record at
all for the seed, refuting the one-record-per-dequeue claim. -/
theorem c1_counterexample :
    c1Env.fetch c1Env.base_url = none ∧ (crawl c1Env).results = [] ∧
    (crawl c1Env).visited = ["http://offline.example"] := by
  have hc : crawl c1Env = ⟨["http://offline.example"], [], []⟩ :=
    runFuel_sound 3 (by decide)
  exact ⟨rfl, by rw [hc], by rw [hc]⟩

/-- C1 (amended): a dequeued URL whose fetch raises produces no PageRecord;
the URL is still recorded in the visited set and the loop moves on.  In
particular a run whose seed fetch raises terminates normally with an empty
result sequence, an empty frontier, and the seed marked visited. -/
theorem c1_failure_handling (env : Env) :
    (∀ s url rest, s.toVisit = url :: rest → url ∉ s.visited →
      env.fetch url = none → s.visited.length < env.max_pages →
      step env s = some ⟨url :: s.visited, rest, s.results⟩) ∧
    (env.fetch env.base_url = none → 0 < env.max_pages →
      crawl env = ⟨[env.base_url], [], []⟩) := by
  have hstep : ∀ s url rest, s.toVisit = url :: rest → url ∉ s.visited →
      env.fetch url = none → s.visited.length < env.max_pages →
      step env s = some ⟨url :: s.visited, rest, s.results⟩ := by
    intro s url rest hq hv hf hg
    unfold step
    rw [hq]
    show (if s.visited.length < env.max_pages then some (processUrl env url rest s) else none) = _
    rw [if_pos hg]
    unfold processUrl
    rw [if_neg hv, hf]
  refine ⟨hstep, ?_⟩
  intro hf hmp
  show crawlLoop env (initState env) = ⟨[env.base_url], [], []⟩
  rw [crawlLoop_eq,
    hstep (initState env) env.base_url [] rfl (List.not_mem_nil _) hf (by simpa [initState] using hmp)]
  show crawlLoop env ⟨[env.base_url], [], []⟩ = ⟨[env.base_url], [], []⟩
  rw [crawlLoop_eq]
  rfl

/-- C1 (witness): the failure step and the whole failed-seed run, on the
concrete offline environment. -/
theorem c1_witness :
    step c1Env (initState c1Env) = some ⟨["http://offline.example"], [], []⟩ ∧
    crawl c1Env = ⟨["http://offline.example"], [], []⟩ := by
  constructor
  · exact (c1_failure_handling c1Env).1 (initState c1Env) "http://offline.example" []
      rfl (List.not_mem_nil _) rfl (by decide)
  · exact (c1_failure_handling c1Env).2 rfl (by decide)

/-- C2: in every state the crawl loop can reach, the frontier holds any URL
at most once, and whatever URL a step dequeues is in the visited set of the
successor state, whatever the fetch outcome was. -/
theorem c2_frontier_invariant (env : Env) (s : CrawlState)
    (h : Reaches env (initState env) s) :
    s.toVisit.Nodup ∧
    (∀ url rest s', s.toVisit = url :: rest → step env s = some s' →
      url ∈ s'.visited) := by
  refine ⟨(basicInv_reaches h).queueNodup, ?_⟩
  intro url rest s' hq hstep
  obtain ⟨url', rest', hq', _hg, hs'⟩ := step_shape hstep
  rw [hq] at hq'
  have hu : url = url' := by injection hq'
  have hr : rest = rest' := by injection hq'
  subst hu
  subst hr
  rcases processUrl_cases env url rest s with ⟨hv, he⟩ | ⟨_hv, _hpl, he⟩ | ⟨_hv, f, _hf, _hpl, he⟩
  · rw [hs', he]
    exact hv
  · rw [hs', he]
    exact List.mem_cons_self _ _
  · rw [hs', he]
    exact List.mem_cons_self _ _

/-- C2 (witness): the invariant instantiated at the final state of the
two-page crawl. -/
theorem c2_witness :
    (crawl wEnv).toVisit.Nodup ∧
    (∀ url rest s', (crawl wEnv).toVisit = url :: rest →
      step wEnv (crawl wEnv) = some s' → url ∈ s'.visited) :=
  c2_frontier_invariant wEnv (crawl wEnv) (reaches_crawlLoop wEnv (initState wEnv))

/-- C4: the output never exceeds the page budget, and reaches the budget
only if at least that many pages are reachable from the seed in the
discovered link graph. -/
theorem c4_budget (env : Env) :
    (crawl env).results.length ≤ env.max_pages ∧
    ((crawl env).results.length = env.max_pages →
      ∃ S : Finset String, S.card = env.max_pages ∧ ∀ u ∈ S, Reach env u) := by
  have hb : BasicInv env (crawl env) :=
    basicInv_reaches (reaches_crawlLoop env (initState env))
  refine ⟨le_trans hb.resLe hb.visLe, ?_⟩
  intro hlen
  refine ⟨((crawl env).results.map (fun r => r.url)).toFinset, ?_, ?_⟩
  · rw [List.toFinset_card_of_nodup hb.resNodup, List.length_map, hlen]
  · intro u hu
    rw [List.mem_toFinset] at hu
    obtain ⟨r, hr, hru⟩ := List.mem_map.mp hu
    exact hru ▸ hb.visReach _ (hb.resVis r hr)

/-- C4 (witness): with budget 1 on the two-page site the output saturates
the budget, and the theorem produces the one-page reachable set. -/
theorem c4_witness :
    (crawl bEnv).results.length = bEnv.max_pages ∧
    ∃ S : Finset String, S.card = bEnv.max_pages ∧ ∀ u ∈ S, Reach bEnv u := by
  have hc : crawl bEnv = ⟨["http://w.example"], ["http://w.example/a"],
      [extract_seo_data "w.example" wDoc1 "http://w.example" 200]⟩ :=
    runFuel_sound 3 (by decide)
  have hlen : (crawl bEnv).results.length = bEnv.max_pages := by
    rw [hc]
    rfl
  exact ⟨hlen, (c4_budget bEnv).2 hlen⟩

/-- C5: the URLs of the output records are pairwise distinct in every run. -/
theorem c5_no_duplicate_urls (env : Env) :
    ((crawl env).results.map (fun r => r.url)).Nodup :=
  (basicInv_reaches (reaches_crawlLoop env (initState env))).resNodup

end Crawler

namespace Crawler

/-- C3: the seed URL heads the output whenever any output exists, and
records appear in nondecreasing graph-distance order: a page at strictly
smaller distance from the seed than another always has the earlier record
index (equal distances — the ties — are left to discovery order). -/
theorem c3_bfs_order (env : Env) :
    (∀ r rs, (crawl env).results = r :: rs → r.url = env.base_url) ∧
    (∀ i j ri rj di dj, (crawl env).results.get? i = some ri →
      (crawl env).results.get? j = some rj → hasDist env ri.url di →
      hasDist env rj.url dj → di < dj → i < j) := by
  constructor
  · intro r rs h
    exact (seedInv_reaches (reaches_crawlLoop env (initState env))).2 r rs h
  · intro i j ri rj di dj hi hj hdi hdj hlt
    have hbfs : BfsInv env (crawl env) :=
      bfsInv_reaches (reaches_crawlLoop env (initState env))
    obtain ⟨d, Q1, Q2, hat⟩ := hbfs
    have h7 := hat.2.2.2.2.2.2.2
    obtain ⟨hi', hgi⟩ := List.get?_eq_some.mp hi
    obtain ⟨hj', hgj⟩ := List.get?_eq_some.mp hj
    by_contra hij
    push_neg at hij
    rcases Nat.lt_or_eq_of_le hij with hji | hji
    · have hR := List.pairwise_iff_get.mp h7 ⟨j, hj'⟩ ⟨i, hi'⟩ hji
      have hdd : dj ≤ di := hR dj di (by rw [hgj]; exact hdj) (by rw [hgi]; exact hdi)
      omega
    · rw [hji] at hj
      rw [hi] at hj
      have hrr : ri = rj := by injection hj
      rw [← hrr] at hdj
      have := hasDist_unique hdi hdj
      omega

def wFinal : CrawlState :=
  ⟨["http://w.example/a", "http://w.example"], [],
   [extract_seo_data "w.example" wDoc1 "http://w.example" 200,
    extract_seo_data "w.example" wDoc2 "http://w.example/a" 200]⟩

/-- C3 (witness): on the two-page site the seed record is first and the
order part applied at distances 0 < 1 yields index 0 before index 1. -/
theorem c3_witness :
    (crawl wEnv).results.get? 0 =
      some (extract_seo_data "w.example" wDoc1 "http://w.example" 200) ∧
    (extract_seo_data "w.example" wDoc1 "http://w.example" 200).url = wEnv.base_url ∧
    (0 : Nat) < 1 := by
  have hc : crawl wEnv = wFinal := runFuel_sound 5 (by decide)
  have h0 : (crawl wEnv).results.get? 0 =
      some (extract_seo_data "w.example" wDoc1 "http://w.example" 200) := by
    rw [hc]
    rfl
  have h1 : (crawl wEnv).results.get? 1 =
      some (extract_seo_data "w.example" wDoc2 "http://w.example/a" 200) := by
    rw [hc]
    rfl
  refine ⟨h0, ?_, ?_⟩
  · have hcons : (crawl wEnv).results =
        extract_seo_data "w.example" wDoc1 "http://w.example" 200 ::
        [extract_seo_data "w.example" wDoc2 "http://w.example/a" 200] := by
      rw [hc]
      rfl
    exact (c3_bfs_order wEnv).1 _ _ hcons
  · have hd0 : hasDist wEnv (extract_seo_data "w.example" wDoc1 "http://w.example" 200).url 0 := by
      show hasDist wEnv "http://w.example" 0
      exact ⟨ReachN.zero, fun k hk => absurd hk (Nat.not_lt_zero k)⟩
    have hd1 : hasDist wEnv (extract_seo_data "w.example" wDoc2 "http://w.example/a" 200).url 1 := by
      show hasDist wEnv "http://w.example/a" 1
      constructor
      · exact ReachN.succ ReachN.zero (by decide)
      · intro k hk hr
        have hk0 : k = 0 := by omega
        subst hk0
        exact absurd (reachN_zero hr) (by decide)
    exact (c3_bfs_order wEnv).2 0 1 _ _ 0 1 h0 h1 hd0 hd1 (by decide)

/-- The Link Discoverer of the spec, as the code implements it: the batch of
new queue entries the link-discovery loop produces when run with an empty
visited set and an empty queue. -/
def discoverLinks (env : Env) (anchors : List String) : List String :=
  enqueueLinks env [] anchors []

/-- Scheme of a URL according to `urlsplit` (empty on a parse error). -/
def urlScheme (u : String) : String :=
  match Url.urlsplit u with
  | Except.ok r => r.scheme
  | Except.error _ => ""

def c6Env : Env := ⟨"http://example.com", "example.com", 0, offlineFetch⟩

/-- C6: the claim says discovery keeps only candidates whose scheme is http
or https.  The code filters on the host alone, so a `mailto:` href (host
empty) is kept and enqueued even though its scheme is neither. -/
theorem c6_counterexample :
    "mailto:user@example.com" ∈ discoverLinks c6Env ["mailto:user@example.com"] ∧
    ¬ (urlScheme "mailto:user@example.com" = "http" ∨
       urlScheme "mailto:user@example.com" = "https") := by
  decide

theorem exceptOk_exists {ε α : Type} {e : Except ε α} (h : e.isOk = true) :
    ∃ a, e = Except.ok a := by
  cases e with
  | error x => simp [Except.isOk, Except.toBool] at h
  | ok a => exact ⟨a, rfl⟩

theorem linkTargets_iff (env : Env) (anchors : List String)
    (hok : ∀ h ∈ anchors, (is_internal_url env.domain h).isOk = true ∧
      (is_internal_url env.domain h = Except.ok true →
        (get_absolute_url env.base_url h).isOk = true)) :
    ∀ u, u ∈ linkTargets env anchors ↔
      ∃ h ∈ anchors, is_internal_url env.domain h = Except.ok true ∧
        get_absolute_url env.base_url h = Except.ok u := by
  induction anchors with
  | nil =>
    intro u
    simp [linkTargets]
  | cons a t ih =>
    intro u
    have hoka := hok a (List.mem_cons_self _ _)
    have hokt : ∀ h ∈ t, (is_internal_url env.domain h).isOk = true ∧
        (is_internal_url env.domain h = Except.ok true →
          (get_absolute_url env.base_url h).isOk = true) :=
      fun h hm => hok h (List.mem_cons_of_mem _ hm)
    obtain ⟨b, hb⟩ := exceptOk_exists hoka.1
    cases b with
    | false =>
      simp only [linkTargets, hb]
      rw [ih hokt u]
      constructor
      · intro ⟨h, hm, hint, habs⟩
        exact ⟨h, List.mem_cons_of_mem _ hm, hint, habs⟩
      · intro ⟨h, hm, hint, habs⟩
        rcases List.mem_cons.mp hm with rfl | hm'
        · rw [hb] at hint
          exact absurd hint (by simp)
        · exact ⟨h, hm', hint, habs⟩
    | true =>
      obtain ⟨v, hv⟩ := exceptOk_exists (hoka.2 hb)
      simp only [linkTargets, hb, hv]
      constructor
      · intro hu
        rcases List.mem_cons.mp hu with rfl | hu'
        · exact ⟨a, List.mem_cons_self _ _, hb, hv⟩
        · obtain ⟨h, hm, hint, habs⟩ := (ih hokt u).mp hu'
          exact ⟨h, List.mem_cons_of_mem _ hm, hint, habs⟩
      · intro ⟨h, hm, hint, habs⟩
        rcases List.mem_cons.mp hm with rfl | hm'
        · rw [hv] at habs
          have : v = u := by injection habs
          exact this ▸ List.mem_cons_self _ _
        · exact List.mem_cons_of_mem _ ((ih hokt u).mpr ⟨h, hm', hint, habs⟩)

/-- C6 (amended): link discovery keeps exactly the anchors whose raw href
parses with a host that is empty or equal to the crawl domain (no scheme
filter — see the counterexample), resolves each kept href (fragment
stripped) against the crawler base URL, and yields a duplicate-free batch. -/
theorem c6_discover (env : Env) (anchors : List String)
    (hok : ∀ h ∈ anchors, (is_internal_url env.domain h).isOk = true ∧
      (is_internal_url env.domain h = Except.ok true →
        (get_absolute_url env.base_url h).isOk = true)) :
    (discoverLinks env anchors).Nodup ∧
    ∀ u, u ∈ discoverLinks env anchors ↔
      ∃ h ∈ anchors, is_internal_url env.domain h = Except.ok true ∧
        get_absolute_url env.base_url h = Except.ok u := by
  obtain ⟨new, hnew, hnodup, hsound, hcomp⟩ := enqueueLinks_spec env [] anchors []
  have hd : discoverLinks env anchors = new := by
    unfold discoverLinks
    simpa using hnew
  rw [hd]
  refine ⟨hnodup, fun u => ⟨fun hu => ?_, fun hu => ?_⟩⟩
  · exact (linkTargets_iff env anchors hok u).mp (hsound u hu).1
  · exact hcomp u ((linkTargets_iff env anchors hok u).mpr hu)
      (List.not_mem_nil u) (List.not_mem_nil u)

/-- C6 (witness): duplicate in-page hrefs collapse and an off-domain href is
dropped, on concrete anchors. -/
theorem c6_witness :
    (discoverLinks c6Env ["/a", "/a", "https://other.example/x"]).Nodup ∧
    ∀ u, u ∈ discoverLinks c6Env ["/a", "/a", "https://other.example/x"] ↔
      ∃ h ∈ ["/a", "/a", "https://other.example/x"],
        is_internal_url c6Env.domain h = Except.ok true ∧
        get_absolute_url c6Env.base_url h = Except.ok u :=
  c6_discover c6Env _ (by decide)

end Crawler

namespace Crawler

/-- C7: the claim fixes the columns as `URL, Status_Code, ...,
Images_With_Alt_Count` and no others.  The actual dictionary uses
space-separated names (`Status Code`, ..., `Images with Alt`) and carries a
fourteenth column `Alt Text Coverage`, so the claimed column list is not the
one produced. -/
theorem c7_counterexample :
    (to_dict { url := "http://e.com" }).map Prod.fst ≠
      ["URL", "Status_Code", "Title", "Meta_Description", "H1", "H2s",
       "Canonical", "Meta_Robots", "Word_Count", "Internal_Links",
       "External_Links", "Image_Count", "Images_With_Alt_Count"] := by
  decide

/-- C7 (amended): every record serialises with exactly these fourteen
columns, in this order: the thirteen claimed fields under space-separated
names (`Images with Alt` for the alt-count) plus `Alt Text Coverage`. -/
theorem c7_columns (m : SEOMetrics) :
    (to_dict m).map Prod.fst =
      ["URL", "Status Code", "Title", "Meta Description", "H1", "H2s",
       "Canonical", "Meta Robots", "Word Count", "Internal Links",
       "External Links", "Image Count", "Images with Alt",
       "Alt Text Coverage"] := rfl

theorem extract_seo_data_title (domain : String) (d : Doc) (url : String) (st : Nat) :
    (extract_seo_data domain d url st).title =
      match d.titleTag with
      | none => ""
      | some none => ""
      | some (some s) => clean_text s := by
  cases h : countInternal domain d.anchors with
  | error e => simp [extract_seo_data, h]
  | ok k => simp [extract_seo_data, h]

/-- C8: the extracted title of a parsed document is the text of its first
title element with whitespace runs collapsed to single spaces and outer
whitespace trimmed, and the empty string when no title element exists. -/
theorem c8_title (domain : String) (d : Doc) (url : String) (st : Nat) :
    (d.titleTag = none → (extract_seo_data domain d url st).title = "") ∧
    (∀ s, d.titleTag = some (some s) →
      (extract_seo_data domain d url st).title = collapseWS s) := by
  constructor
  · intro h
    rw [extract_seo_data_title, h]
  · intro s h
    rw [extract_seo_data_title, h]
    exact clean_text_eq_collapseWS s

def c8Doc : Doc := { titleTag := some (some "  Hello   World  ") }

/-- C8 (witness): the spec example `<title>  Hello   World  </title>`
extracts to `Hello World`. -/
theorem c8_witness :
    (extract_seo_data "example.com" c8Doc "http://example.com/t" 200).title =
      "Hello World" := by
  have h := (c8_title "example.com" c8Doc "http://example.com/t" 200).2
    "  Hello   World  " rfl
  rw [h]
  rfl

/-- C9: the claim says any invalid seed is fatal with a non-zero exit.  A
seed that is not a URL at all parses fine under urlparse (empty scheme and
host), so the constructor does not raise; the seed fetch then fails, the
loop absorbs it, and main returns 0. -/
theorem c9_counterexample : mainExit offlineFetch "not a url" 5 = 0 := by
  decide

/-- C9 (amended): the run exits 1 exactly when `urlparse` raises on the seed
in the constructor (for example a mismatched IPv6 bracket); for every seed
that parses — valid or not — the per-page handler absorbs the failure and
the exit status is 0. -/
theorem c9_exit_codes :
    (∀ fetch url mp e, Url.urlparse url = Except.error e →
      mainExit fetch url mp = 1) ∧
    (∀ fetch url mp p, Url.urlparse url = Except.ok p →
      mainExit fetch url mp = 0) := by
  constructor
  · intro fetch url mp e he
    unfold mainExit mkEnv
    rw [he]
    rfl
  · intro fetch url mp p hp
    unfold mainExit mkEnv
    rw [hp]
    rfl

/-- C9 (witness): a bracket-broken seed exits 1; an unusable but parseable
seed exits 0. -/
theorem c9_witness :
    mainExit offlineFetch "http://[oops" 5 = 1 ∧
    mainExit offlineFetch "nonsense" 5 = 0 := by
  constructor
  · exact (c9_exit_codes).1 offlineFetch "http://[oops" 5 "Invalid IPv6 URL" (by decide)
  · exact (c9_exit_codes).2 offlineFetch "nonsense" 5 ⟨"", "", "nonsense", "", "", ""⟩ (by decide)

theorem countInternal_le {domain : String} :
    ∀ {l : List String} {k : Nat}, countInternal domain l = Except.ok k → k ≤ l.length := by
  intro l
  induction l with
  | nil =>
    intro k h
    have h0 : k = 0 := by
      have : Except.ok 0 = (Except.ok k : Except String Nat) := h
      injection this with h1
      exact h1.symm
    simp [h0]
  | cons a t ih =>
    intro k h
    rw [countInternal] at h
    cases hb : is_internal_url domain a with
    | error e =>
      rw [hb] at h
      exact absurd h (by simp [Bind.bind, Except.bind])
    | ok b =>
      rw [hb] at h
      cases hn : countInternal domain t with
      | error e =>
        rw [hn] at h
        exact absurd h (by simp [Bind.bind, Except.bind])
      | ok n =>
        rw [hn] at h
        have hk : (if b then n + 1 else n) = k := by
          have h' : Except.ok (if b then n + 1 else n) = (Except.ok k : Except String Nat) := by
            simpa [Bind.bind, Except.bind, pure, Except.pure] using h
          injection h' with h1
        have hnt : n ≤ t.length := ih hn
        cases b with
        | false =>
          simp only [if_false, Bool.false_eq_true, reduceIte] at hk
          simp [← hk]
          omega
        | true =>
          simp only [if_true, reduceIte] at hk
          simp [← hk, List.length_cons]
          omega

/-- C10: whenever the internal-link count evaluates without raising (the
`successfully extracted` case of the claim), internal plus external link
counts equal the total number of anchors with an href: the subtraction at
line 147 classifies every anchor into exactly one bucket. -/
theorem c10_link_partition (domain : String) (d : Doc) (url : String) (st : Nat)
    (k : Nat) (hok : countInternal domain d.anchors = Except.ok k) :
    (extract_seo_data domain d url st).internal_links +
      (extract_seo_data domain d url st).external_links = d.anchors.length := by
  have hk := countInternal_le hok
  simp only [extract_seo_data, hok]
  omega

def c10Doc : Doc := { anchors := ["/a", "https://other.example/b"] }

/-- C10 (witness): one internal and one external anchor sum to the anchor
count. -/
theorem c10_witness :
    (extract_seo_data "example.com" c10Doc "http://example.com" 200).internal_links +
      (extract_seo_data "example.com" c10Doc "http://example.com" 200).external_links =
      c10Doc.anchors.length :=
  c10_link_partition "example.com" c10Doc "http://example.com" 200 1 (by decide)

end Crawler
